import Mathlib

/-!
Verification of the lite-rpc block-ingest core against its specification.

Shallow embedding of the Rust sources:
* `src/cluster-endpoints/src/multiplexing_subscriptions.rs` (block multiplexer),
* `src/cluster-endpoints/src/grpc_inspect.rs` (invariant auditor / debug listeners),
* `src/lite-rpc/src/bridge.rs` (RPC bridge),
* `src/stake_vote/src/stake.rs` (stake map actions),
* `src/bench/src/metrics.rs` (metrics aggregation),
* `src/history/src/postgres/postgres_block.rs` (persistence record).

Machine integers are modelled as `Nat` (with explicit `% 2^64` where u64
wrap-around matters); Rust `f64` metric fields are modelled as exact
rationals `ℚ`; `Duration` is modelled as a count of nanoseconds.
-/

namespace LiteRpc

/-! ## Block multiplexer (multiplexing_subscriptions.rs)

The block multiplexer task keeps `block_notified : BTreeSet<(Slot, Commitment)>`.
For each arriving block it computes the key `(block.slot, block.commitment)`;
if the key is already in the set the block is dropped, otherwise the key is
inserted, the set is trimmed to `NB_BLOCKS_TO_CACHE` entries by `pop_first`
(which removes the least key), and the block is forwarded.

We model the `BTreeSet` as a strictly ascending sorted list of keys
`(slot, commitment)` where the commitment level is encoded as a `Nat`
(processed = 0, confirmed = 1, finalized = 2); the traces processed by the
multiplexer are modelled as lists of keys, since slot and commitment are the
only block fields the task inspects. -/

/-- A `(slot, commitment)` key as stored in `block_notified`. -/
abbrev MuxKey := Nat × Nat

/-- `NB_BLOCKS_TO_CACHE` from multiplexing_subscriptions.rs line 16. -/
def NB_BLOCKS_TO_CACHE : Nat := 1024

/-- Lexicographic strict order on keys: the derived `Ord` of
`(Slot, Commitment)` used by the Rust `BTreeSet`. -/
def keyLt (a b : MuxKey) : Bool :=
  a.1 < b.1 || (a.1 == b.1 && a.2 < b.2)

/-- `BTreeSet::contains` on the sorted-list representation: stop as soon as
the scanned element exceeds the key. -/
def sortedContains (l : List MuxKey) (k : MuxKey) : Bool :=
  match l with
  | [] => false
  | x :: xs => if keyLt k x then false else if k == x then true else sortedContains xs k

/-- `BTreeSet::insert` on the sorted-list representation (only ever called
with keys not already present). -/
def sortedInsert (l : List MuxKey) (k : MuxKey) : List MuxKey :=
  match l with
  | [] => [k]
  | x :: xs => if keyLt k x then k :: x :: xs else x :: sortedInsert xs k

/-- `BTreeSet::pop_first`: remove the least key, which heads the sorted list. -/
def popFirst (l : List MuxKey) : List MuxKey :=
  match l with
  | [] => []
  | _ :: xs => xs

/-- Multiplexer state: the `block_notified` cache and the keys of the blocks
sent so far on `block_sx` (in emission order). -/
structure MuxState where
  cache : List MuxKey
  out : List MuxKey
deriving DecidableEq, Repr

/-- One iteration of the `block_multiplexer` loop body at a received block
with key `k` (multiplexing_subscriptions.rs lines 85-98). -/
def muxStep (s : MuxState) (k : MuxKey) : MuxState :=
  if sortedContains s.cache k then s
  else
    let c := sortedInsert s.cache k
    let c := if c.length > NB_BLOCKS_TO_CACHE then popFirst c else c
    { cache := c, out := s.out ++ [k] }

/-- Run the multiplexer over a merged arrival trace, starting from a state. -/
def muxRunFrom (s : MuxState) (t : List MuxKey) : MuxState :=
  t.foldl muxStep s

/-- Run the multiplexer over a merged arrival trace from the initial state
(`block_notified` empty, nothing emitted yet). -/
def muxRun (t : List MuxKey) : MuxState :=
  muxRunFrom ⟨[], []⟩ t

/-- The keys `[(j,0), (j-1,0), …, (0,0)]`: distinct arrivals with strictly
descending slots, all at the same commitment level. -/
def descFrom : Nat → List MuxKey
  | 0 => [(0, 0)]
  | j + 1 => (j + 1, 0) :: descFrom j

/-- The keys `[(a,0), (a+1,0), …, (a+b-1,0)]`: an ascending cache segment. -/
def ascKeys (a b : Nat) : List MuxKey :=
  (List.range' a b).map (fun s => (s, 0))

/-- The arrival trace that defeats the bounded dedup cache: 1025 distinct
keys with descending slots 1024, 1023, …, 0 (all at commitment 0), followed
by a repetition of the key `(0, 0)`. Inserting the 1025th key overflows
`NB_BLOCKS_TO_CACHE`, so `pop_first` evicts the least key `(0, 0)`; the
repeated `(0, 0)` is then no longer in the cache and is emitted a second
time. -/
def c1Trace : List MuxKey :=
  descFrom 1024 ++ [(0, 0)]

theorem ascKeys_zero (a : Nat) : ascKeys a 0 = [] := rfl

theorem ascKeys_succ (a b : Nat) : ascKeys a (b + 1) = (a, 0) :: ascKeys (a + 1) b := by
  simp [ascKeys, List.range'_succ]

theorem ascKeys_length (a b : Nat) : (ascKeys a b).length = b := by
  simp [ascKeys]

theorem keyLt_lt {s t c d : Nat} (h : s < t) : keyLt (s, c) (t, d) = true := by
  simp [keyLt]
  omega

/-- A key whose slot is below every slot of an ascending cache segment is
not found by `sortedContains`. -/
theorem sortedContains_asc (k b : Nat) :
    sortedContains (ascKeys (k + 1) b) (k, 0) = false := by
  cases b with
  | zero => rfl
  | succ b' =>
      rw [ascKeys_succ]
      simp [sortedContains, keyLt_lt (Nat.lt_succ_self k)]

/-- `sortedInsert` of a key below an ascending cache segment extends the
segment at the head. -/
theorem sortedInsert_asc (k b : Nat) :
    sortedInsert (ascKeys (k + 1) b) (k, 0) = ascKeys k (b + 1) := by
  cases b with
  | zero => simp [ascKeys_zero, ascKeys_succ, sortedInsert]
  | succ b' =>
      rw [ascKeys_succ (k + 1)]
      simp only [sortedInsert, keyLt_lt (Nat.lt_succ_self k), if_true]
      rw [ascKeys_succ k, ascKeys_succ (k + 1)]

/-- `pop_first` on an ascending cache segment removes its head. -/
theorem popFirst_asc (a b : Nat) :
    popFirst (ascKeys a (b + 1)) = ascKeys (a + 1) b := by
  rw [ascKeys_succ]; rfl

/-- A step of the multiplexer at a fresh key below the whole cache, when the
cache has room: the key is emitted and prepended. -/
theorem muxStep_desc (k b : Nat) (out : List MuxKey) (hb : b ≤ NB_BLOCKS_TO_CACHE - 1) :
    muxStep ⟨ascKeys (k + 1) b, out⟩ (k, 0) =
      ⟨ascKeys k (b + 1), out ++ [(k, 0)]⟩ := by
  simp only [muxStep, sortedContains_asc, Bool.false_eq_true, if_false,
    sortedInsert_asc, ascKeys_length, gt_iff_lt]
  rw [if_neg (by simp [NB_BLOCKS_TO_CACHE] at hb ⊢; omega)]

/-- Running the multiplexer over the descending arrivals `(j,0) … (0,0)`
starting with the cache `[(j+1,0) … (1024,0)]` emits every arrival and ends
with the full cache `[(1,0) … (1024,0)]` (the very last insertion overflows
the cache and `pop_first` evicts `(0,0)` itself). -/
theorem muxRunFrom_descFrom (j : Nat) (hj : j ≤ 1024) (out : List MuxKey) :
    muxRunFrom ⟨ascKeys (j + 1) (1024 - j), out⟩ (descFrom j) =
      ⟨ascKeys 1 1024, out ++ descFrom j⟩ := by
  induction j generalizing out with
  | zero =>
      have hcontains := sortedContains_asc 0 1024
      have hinsert := sortedInsert_asc 0 1024
      rw [Nat.zero_add] at hcontains hinsert
      simp only [descFrom, muxRunFrom, List.foldl_cons, List.foldl_nil, Nat.sub_zero]
      simp only [muxStep, Nat.zero_add, hcontains, Bool.false_eq_true, if_false,
        hinsert, ascKeys_length, gt_iff_lt]
      rw [if_pos (show NB_BLOCKS_TO_CACHE < 1024 + 1 by norm_num [NB_BLOCKS_TO_CACHE])]
      rw [popFirst_asc]
  | succ j' ih =>
      simp only [descFrom, muxRunFrom, List.foldl_cons]
      have hb : 1024 - (j' + 1) ≤ NB_BLOCKS_TO_CACHE - 1 := by
        simp only [NB_BLOCKS_TO_CACHE]
        omega
      rw [muxStep_desc (j' + 1) (1024 - (j' + 1)) out hb]
      have harith : 1024 - (j' + 1) + 1 = 1024 - j' := by omega
      rw [harith]
      have h := ih (by omega) (out ++ [(j' + 1, 0)])
      simp only [muxRunFrom] at h
      rw [h]
      simp

theorem count_descFrom_zero (j : Nat) :
    (descFrom j).count ((0 : Nat), (0 : Nat)) = 1 := by
  induction j with
  | zero => rfl
  | succ j' ih =>
      rw [descFrom, List.count_cons]
      rw [ih]
      norm_num [Prod.ext_iff]

/-- Running the multiplexer on `c1Trace` emits the key `(0,0)` twice. -/
theorem muxRun_c1Trace_out_count :
    (muxRun c1Trace).out.count ((0 : Nat), (0 : Nat)) = 2 := by
  have h1 : muxRun c1Trace =
      muxRunFrom (muxRunFrom ⟨[], []⟩ (descFrom 1024)) (descFrom 0) := by
    unfold muxRun c1Trace muxRunFrom
    rw [List.foldl_append]
    rfl
  have h2 : muxRunFrom (⟨[], []⟩ : MuxState) (descFrom 1024) =
      ⟨ascKeys 1 1024, descFrom 1024⟩ := by
    have h := muxRunFrom_descFrom 1024 (le_refl _) []
    simp only [Nat.sub_self, ascKeys_zero, List.nil_append] at h
    exact h
  have h3 := muxRunFrom_descFrom 0 (by omega) (descFrom 1024)
  rw [Nat.sub_zero] at h3
  rw [h1, h2, h3]
  simp only [List.count_append, count_descFrom_zero]

/-! Positive direction: as long as the number of distinct keys stays within
`NB_BLOCKS_TO_CACHE`, the `pop_first` trimming never fires and the
multiplexer deduplicates perfectly. -/

theorem keyLt_asymm {a b : MuxKey} (h : keyLt a b = true) : keyLt b a = false := by
  cases a; cases b; simp [keyLt] at h ⊢; omega

theorem keyLt_ne {a b : MuxKey} (h : keyLt a b = true) : a ≠ b := by
  cases a; cases b
  simp [keyLt] at h
  rintro ⟨⟩
  omega

theorem keyLt_total {a b : MuxKey} (h1 : keyLt a b = false) (h2 : a ≠ b) :
    keyLt b a = true := by
  cases a; cases b
  simp [keyLt, Prod.ext_iff] at h1 h2 ⊢
  omega

theorem keyLt_trans {a b c : MuxKey} (h1 : keyLt a b = true)
    (h2 : keyLt b c = true) : keyLt a c = true := by
  cases a; cases b; cases c
  simp [keyLt] at h1 h2 ⊢
  omega

theorem sortedContains_sound {l : List MuxKey} {k : MuxKey}
    (h : sortedContains l k = true) : k ∈ l := by
  induction l with
  | nil => simp [sortedContains] at h
  | cons x xs ih =>
      by_cases hlt : keyLt k x = true
      · simp [sortedContains, hlt] at h
      · by_cases he : k = x
        · simp [he]
        · have hb : keyLt k x = false := by
            cases hkx : keyLt k x
            · rfl
            · exact absurd hkx hlt
          simp only [sortedContains, hb, Bool.false_eq_true, if_false] at h
          rw [if_neg (by simpa using he)] at h
          exact List.mem_cons_of_mem x (ih h)

theorem sortedContains_complete {l : List MuxKey} {k : MuxKey}
    (hs : l.Pairwise (fun a b => keyLt a b = true)) (h : k ∈ l) :
    sortedContains l k = true := by
  induction l with
  | nil => simp at h
  | cons x xs ih =>
      rcases List.mem_cons.mp h with he | hm
      · subst he
        have : keyLt k k = false := by
          cases hkk : keyLt k k
          · rfl
          · exact absurd rfl (keyLt_ne hkk)
        simp [sortedContains, this]
      · have hx : keyLt x k = true := (List.pairwise_cons.mp hs).1 k hm
        have h1 : keyLt k x = false := keyLt_asymm hx
        have h2 : k ≠ x := (keyLt_ne hx).symm
        simp only [sortedContains, h1, Bool.false_eq_true, if_false]
        rw [if_neg (by simpa using h2)]
        exact ih (List.pairwise_cons.mp hs).2 hm

theorem sortedInsert_mem (l : List MuxKey) (k a : MuxKey) :
    a ∈ sortedInsert l k ↔ a = k ∨ a ∈ l := by
  induction l with
  | nil => simp [sortedInsert]
  | cons x xs ih =>
      by_cases hlt : keyLt k x = true
      · simp [sortedInsert, hlt]
      · have hb : keyLt k x = false := by
          cases hkx : keyLt k x
          · rfl
          · exact absurd hkx hlt
        simp only [sortedInsert, hb, Bool.false_eq_true, if_false]
        simp [ih]
        tauto

theorem sortedInsert_length (l : List MuxKey) (k : MuxKey) :
    (sortedInsert l k).length = l.length + 1 := by
  induction l with
  | nil => rfl
  | cons x xs ih =>
      by_cases hlt : keyLt k x = true
      · simp [sortedInsert, hlt]
      · have hb : keyLt k x = false := by
          cases hkx : keyLt k x
          · rfl
          · exact absurd hkx hlt
        simp [sortedInsert, hb, ih]

theorem sortedInsert_pairwise {l : List MuxKey} {k : MuxKey}
    (hs : l.Pairwise (fun a b => keyLt a b = true)) (hk : k ∉ l) :
    (sortedInsert l k).Pairwise (fun a b => keyLt a b = true) := by
  induction l with
  | nil => simp [sortedInsert]
  | cons x xs ih =>
      rcases List.pairwise_cons.mp hs with ⟨hx, hxs⟩
      by_cases hlt : keyLt k x = true
      · simp only [sortedInsert, hlt, if_true]
        refine List.pairwise_cons.mpr ⟨?_, hs⟩
        intro a ha
        rcases List.mem_cons.mp ha with rfl | hm
        · exact hlt
        · exact keyLt_trans hlt (hx a hm)
      · have hb : keyLt k x = false := by
          cases hkx : keyLt k x
          · rfl
          · exact absurd hkx hlt
        have hxk : keyLt x k = true :=
          keyLt_total hb (fun he => hk (he ▸ List.mem_cons_self x xs))
        simp only [sortedInsert, hb, Bool.false_eq_true, if_false]
        refine List.pairwise_cons.mpr ⟨?_, ih hxs (fun hm => hk (List.mem_cons_of_mem x hm))⟩
        intro a ha
        rcases (sortedInsert_mem xs k a).mp ha with rfl | hm
        · exact hxk
        · exact hx a hm

theorem pairwise_nodup {l : List MuxKey}
    (hs : l.Pairwise (fun a b => keyLt a b = true)) : l.Nodup :=
  hs.imp (fun h => keyLt_ne h)

/-- The dedup invariant carried through a run of the multiplexer: the cache
is a strictly sorted list holding exactly the keys seen so far, and the
output contains each seen key exactly once. -/
def MuxInv (seen : List MuxKey) (st : MuxState) : Prop :=
  st.cache.Pairwise (fun a b => keyLt a b = true) ∧
    (∀ k, k ∈ st.cache ↔ k ∈ seen) ∧
    (∀ k, st.out.count k ≤ 1) ∧
    (∀ k, k ∈ st.out ↔ k ∈ seen)

theorem muxRunFrom_inv (t : List MuxKey) :
    ∀ (seen : List MuxKey) (st : MuxState), MuxInv seen st →
      (seen ++ t).toFinset.card ≤ NB_BLOCKS_TO_CACHE →
      MuxInv (seen ++ t) (muxRunFrom st t) := by
  induction t with
  | nil => intro seen st h _; simpa [muxRunFrom] using h
  | cons k t' ih =>
      intro seen st h hcard
      obtain ⟨hsort, hcache, hcount, hout⟩ := h
      have hassoc : seen ++ k :: t' = (seen ++ [k]) ++ t' := by simp
      rw [hassoc] at hcard ⊢
      have hrun : muxRunFrom st (k :: t') = muxRunFrom (muxStep st k) t' := rfl
      rw [hrun]
      by_cases hc : sortedContains st.cache k = true
      · have hkseen : k ∈ seen := (hcache k).mp (sortedContains_sound hc)
        have hstep : muxStep st k = st := by simp [muxStep, hc]
        rw [hstep]
        refine ih (seen ++ [k]) st ⟨hsort, ?_, hcount, ?_⟩ hcard
        · intro a; rw [hcache a]; simp; intro he; subst he; exact hkseen
        · intro a; rw [hout a]; simp; intro he; subst he; exact hkseen
      · have hkc : k ∉ st.cache := fun hm => hc (sortedContains_complete hsort hm)
        have hkseen : k ∉ seen := fun hm => hkc ((hcache k).mpr hm)
        have hsort' := sortedInsert_pairwise hsort hkc
        have hnodup' : (sortedInsert st.cache k).Nodup := pairwise_nodup hsort'
        have hsub : (sortedInsert st.cache k).toFinset ⊆ ((seen ++ [k]) ++ t').toFinset := by
          intro a ha
          rw [List.mem_toFinset] at ha
          rcases (sortedInsert_mem _ _ _).mp ha with rfl | hm
          · simp
          · rw [List.mem_toFinset]
            simp [(hcache a).mp hm]
        have hlen : (sortedInsert st.cache k).length ≤ NB_BLOCKS_TO_CACHE := by
          rw [← List.toFinset_card_of_nodup hnodup']
          exact le_trans (Finset.card_le_card hsub) hcard
        have hstep : muxStep st k =
            ⟨sortedInsert st.cache k, st.out ++ [k]⟩ := by
          simp only [muxStep, hc, Bool.false_eq_true, if_false]
          rw [if_neg (by omega)]
        rw [hstep]
        refine ih (seen ++ [k]) ⟨sortedInsert st.cache k, st.out ++ [k]⟩
          ⟨hsort', ?_, ?_, ?_⟩ hcard
        · intro a
          rw [sortedInsert_mem, hcache a]
          simp [or_comm]
        · intro a
          rw [List.count_append]
          by_cases he : a = k
          · subst he
            have : a ∉ st.out := fun hm => hkseen ((hout a).mp hm)
            simp [List.count_eq_zero_of_not_mem this]
          · have : List.count a [k] = 0 := List.count_eq_zero.mpr (by simp [he])
            rw [this]
            simpa using hcount a
        · intro a
          simp only [List.mem_append, hout a, List.mem_singleton]

/-- Amended C1: whenever at most `NB_BLOCKS_TO_CACHE` distinct
`(slot, commitment)` keys occur in the merged arrival trace, the multiplexer
emits each key at most once (the first observation is forwarded, later ones
are discarded), and a key is emitted iff it was observed. -/
theorem mux_dedup (t : List MuxKey)
    (h : t.toFinset.card ≤ NB_BLOCKS_TO_CACHE) (k : MuxKey) :
    (muxRun t).out.count k ≤ 1 ∧ (k ∈ (muxRun t).out ↔ k ∈ t) := by
  have hinit : MuxInv [] ⟨[], []⟩ := by
    refine ⟨List.Pairwise.nil, ?_, ?_, ?_⟩ <;> simp
  have := muxRunFrom_inv t [] ⟨[], []⟩ hinit (by simpa using h)
  obtain ⟨_, _, hcount, hout⟩ := this
  exact ⟨hcount k, by simpa using hout k⟩

/-- Witness for `mux_dedup` at a concrete duplicated trace. -/
theorem mux_dedup_witness :
    (muxRun [(7, 2), (7, 2)]).out.count ((7 : Nat), (2 : Nat)) ≤ 1 ∧
      (((7 : Nat), (2 : Nat)) ∈ (muxRun [(7, 2), (7, 2)]).out ↔
        ((7 : Nat), (2 : Nat)) ∈ [((7 : Nat), (2 : Nat)), ((7 : Nat), (2 : Nat))]) :=
  mux_dedup [(7, 2), (7, 2)] (by decide) (7, 2)

/-! ## Slot ordering of the merged stream (claim C2)

The `block_multiplexer` task holds no `last_emitted_slot` variable: its only
state is the `block_notified` dedup set. A late arrival with a smaller slot
than previously emitted blocks of the same commitment level is forwarded as
long as its `(slot, commitment)` key is fresh. `block_debug_listen` in
grpc_inspect.rs merely logs a warning when its monotonicity check fails
("Monotonic check failed - block {} is out of order"); nothing suppresses
the block. -/

/-- On the arrival trace `(5, c)` then `(3, c)` (same commitment `c = 0`)
the multiplexer emits both blocks in arrival order: the emitted slot
sequence at one commitment level decreases from 5 to 3, refuting the claimed
`last_emitted_slot` suppression. -/
theorem mux_emits_decreasing_slots :
    (muxRun [(5, 0), (3, 0)]).out = [(5, 0), (3, 0)] ∧ (3 : Nat) < 5 := by
  constructor
  · decide
  · omega

theorem popFirst_subset {l : List MuxKey} {a : MuxKey} (h : a ∈ popFirst l) :
    a ∈ l := by
  cases l with
  | nil => simp [popFirst] at h
  | cons x xs => exact List.mem_cons_of_mem x h

theorem muxStep_cache_subset {st : MuxState} {k a : MuxKey}
    (h : a ∈ (muxStep st k).cache) : a ∈ st.cache ∨ a = k := by
  by_cases hc : sortedContains st.cache k = true
  · simp only [muxStep, hc, if_true] at h
    exact Or.inl h
  · simp only [muxStep, hc, Bool.false_eq_true, if_false] at h
    by_cases hl : (sortedInsert st.cache k).length > NB_BLOCKS_TO_CACHE
    · rw [if_pos hl] at h
      rcases (sortedInsert_mem _ _ _).mp (popFirst_subset h) with rfl | hm
      · exact Or.inr rfl
      · exact Or.inl hm
    · rw [if_neg hl] at h
      rcases (sortedInsert_mem _ _ _).mp h with rfl | hm
      · exact Or.inr rfl
      · exact Or.inl hm

theorem muxRunFrom_cache_subset (t : List MuxKey) :
    ∀ (st : MuxState) (a : MuxKey),
      a ∈ (muxRunFrom st t).cache → a ∈ st.cache ∨ a ∈ t := by
  induction t with
  | nil => intro st a h; exact Or.inl h
  | cons k t' ih =>
      intro st a h
      rcases ih (muxStep st k) a h with hm | hm
      · rcases muxStep_cache_subset hm with hm' | rfl
        · exact Or.inl hm'
        · exact Or.inr (List.mem_cons_self _ _)
      · exact Or.inr (List.mem_cons_of_mem _ hm)

/-- Amended C2: the multiplexer applies no slot-ordering suppression at all.
Any block whose `(slot, commitment)` key has not been observed before is
emitted — in particular also when its slot is smaller than every previously
emitted slot of the same commitment level; only the `(slot, commitment)`
dedup governs emission. -/
theorem mux_no_slot_suppression (t : List MuxKey) (k : MuxKey) (hk : k ∉ t) :
    (muxRun (t ++ [k])).out = (muxRun t).out ++ [k] := by
  have hsplit : muxRun (t ++ [k]) = muxStep (muxRun t) k := by
    unfold muxRun muxRunFrom
    rw [List.foldl_append]
    rfl
  have hkc : k ∉ (muxRun t).cache := by
    intro hm
    rcases muxRunFrom_cache_subset t ⟨[], []⟩ k hm with h | h
    · simp at h
    · exact hk h
  have hc : sortedContains (muxRun t).cache k = false := by
    cases h : sortedContains (muxRun t).cache k
    · rfl
    · exact absurd (sortedContains_sound h) hkc
  rw [hsplit]
  simp only [muxStep, hc, Bool.false_eq_true, if_false]

/-- Witness for `mux_no_slot_suppression`: a fresh key with a smaller slot
right after a larger emitted slot. -/
theorem mux_no_slot_suppression_witness :
    (muxRun ([(5, 0)] ++ [(3, 0)])).out = (muxRun [(5, 0)]).out ++ [(3, 0)] :=
  mux_no_slot_suppression [(5, 0)] (3, 0) (by decide)

/-! ## Invariant auditor (grpc_inspect.rs, block_debug_confirmation_levels)

The auditor keeps three `HashMap<Slot, SystemTime>` maps (`saw_processed_at`,
`saw_confirmed_at`, `saw_finalized_at`), a `cleanup_before_slot` threshold
and a `slots_since_last_cleanup` counter. Each map is modelled by its key
set, as a `List Nat` (the wall-clock timestamps stored as values never
influence control flow). Error-level log lines are modelled as `AuditEvent`
values. -/

def U64_MOD : Nat := 2 ^ 64

/-- u64 wrapping subtraction, the release-build semantics of the Rust `-`
operator on `u64` (a debug build panics on underflow instead). -/
def u64sub (a b : Nat) : Nat := (a + U64_MOD - b) % U64_MOD

/-- The three commitment levels (`CommitmentConfig::is_processed` etc.). -/
inductive Level where
  | processed
  | confirmed
  | finalized
deriving DecidableEq, Repr

/-- A block as seen by the auditor: only slot and commitment level matter. -/
structure AuditBlock where
  slot : Nat
  level : Level
deriving DecidableEq, Repr

/-- One error-level log line of `block_debug_confirmation_levels`. -/
inductive AuditEvent where
  | dupProcessed (slot : Nat)
  | dupConfirmed (slot : Nat)
  | dupFinalized (slot : Nat)
  | confirmedWithoutProcessed (slot : Nat)
  | confirmedAfterFinalized (slot : Nat)
  | processedAfterConfirmed (slot : Nat)
  | processedAfterFinalized (slot : Nat)
  | finalizedWithoutProcessed (slot : Nat)
  | finalizedWithoutConfirmed (slot : Nat)
deriving DecidableEq, Repr

/-- `HashMap::insert` on the key-set model: adds the key if absent. -/
def slotInsert (l : List Nat) (s : Nat) : List Nat :=
  if s ∈ l then l else s :: l

/-- Auditor state (grpc_inspect.rs lines 15-20). -/
structure AuditState where
  cleanup_before_slot : Nat
  slots_since_last_cleanup : Nat
  saw_processed_at : List Nat
  saw_confirmed_at : List Nat
  saw_finalized_at : List Nat
deriving DecidableEq, Repr

def initAudit : AuditState := ⟨0, 0, [], [], []⟩

/-- The map of the given level. -/
def AuditState.saw (st : AuditState) : Level → List Nat
  | .processed => st.saw_processed_at
  | .confirmed => st.saw_confirmed_at
  | .finalized => st.saw_finalized_at

/-- One iteration of the `block_debug_confirmation_levels` receive loop at a
received block (grpc_inspect.rs lines 24-160): skip blocks older than the
cleanup threshold, record first-seen per level with duplicate detection,
check the commitment-ladder rules, then run the periodic cleanup. The
cleanup `retain` uses the OLD `cleanup_before_slot` and only afterwards sets
it to `block.slot - 200` (lines 148-151), a u64 subtraction that wraps when
the triggering slot is below 200 (release build; a debug build panics
there), modelled by `u64sub`. -/
def auditStep (st : AuditState) (b : AuditBlock) : AuditState × List AuditEvent :=
  if b.slot < st.cleanup_before_slot then (st, [])
  else
    let p1 := if b.level = .processed then slotInsert st.saw_processed_at b.slot
              else st.saw_processed_at
    let c1 := if b.level = .confirmed then slotInsert st.saw_confirmed_at b.slot
              else st.saw_confirmed_at
    let f1 := if b.level = .finalized then slotInsert st.saw_finalized_at b.slot
              else st.saw_finalized_at
    let evs :=
      (if b.level = .processed ∧ b.slot ∈ st.saw_processed_at
        then [AuditEvent.dupProcessed b.slot] else []) ++
      (if b.level = .confirmed ∧ b.slot ∈ st.saw_confirmed_at
        then [AuditEvent.dupConfirmed b.slot] else []) ++
      (if b.level = .finalized ∧ b.slot ∈ st.saw_finalized_at
        then [AuditEvent.dupFinalized b.slot] else []) ++
      (if b.level = .confirmed ∧ b.slot ∉ p1
        then [AuditEvent.confirmedWithoutProcessed b.slot] else []) ++
      (if b.level = .confirmed ∧ b.slot ∈ f1
        then [AuditEvent.confirmedAfterFinalized b.slot] else []) ++
      (if b.level = .processed ∧ b.slot ∈ c1
        then [AuditEvent.processedAfterConfirmed b.slot] else []) ++
      (if b.level = .processed ∧ b.slot ∈ f1
        then [AuditEvent.processedAfterFinalized b.slot] else []) ++
      (if b.level = .finalized ∧ b.slot ∉ p1
        then [AuditEvent.finalizedWithoutProcessed b.slot] else []) ++
      (if b.level = .finalized ∧ b.slot ∉ c1
        then [AuditEvent.finalizedWithoutConfirmed b.slot] else [])
    let st' :=
      if st.slots_since_last_cleanup < 500 then
        { st with
          saw_processed_at := p1, saw_confirmed_at := c1, saw_finalized_at := f1,
          slots_since_last_cleanup := st.slots_since_last_cleanup + 1 }
      else
        { cleanup_before_slot := u64sub b.slot 200,
          slots_since_last_cleanup := 0,
          saw_processed_at := p1.filter (fun s => st.cleanup_before_slot ≤ s),
          saw_confirmed_at := c1.filter (fun s => st.cleanup_before_slot ≤ s),
          saw_finalized_at := f1.filter (fun s => st.cleanup_before_slot ≤ s) }
    (st', evs)

/-- Run the auditor over a block trace, accumulating the emitted events. -/
def auditSteps (st : AuditState) : List AuditBlock → AuditState × List AuditEvent
  | [] => (st, [])
  | b :: bs =>
      let r1 := auditStep st b
      let r2 := auditSteps r1.1 bs
      (r2.1, r1.2 ++ r2.2)

/-- Run the auditor from its initial state. -/
def auditRun (t : List AuditBlock) : AuditState × List AuditEvent :=
  auditSteps initAudit t

theorem auditSteps_append (t1 t2 : List AuditBlock) :
    ∀ st : AuditState,
      auditSteps st (t1 ++ t2) =
        ((auditSteps (auditSteps st t1).1 t2).1,
          (auditSteps st t1).2 ++ (auditSteps (auditSteps st t1).1 t2).2) := by
  induction t1 with
  | nil => intro st; simp [auditSteps]
  | cons b bs ih =>
      intro st
      simp only [List.cons_append, auditSteps, List.append_eq]
      rw [ih (auditStep st b).1]
      simp [List.append_assoc]

theorem auditSteps_append_fst (t1 t2 : List AuditBlock) (st : AuditState) :
    (auditSteps st (t1 ++ t2)).1 = (auditSteps (auditSteps st t1).1 t2).1 := by
  rw [auditSteps_append]

/-- A block at slot 1000, processed commitment: the bulk of the auditor
counterexample traces. -/
def c6Block : AuditBlock := ⟨1000, .processed⟩

/-- Repeating the slot-1000 processed block from a state that has already
recorded it only bumps the counter and logs one duplicate error per block,
as long as the counter stays below the cleanup trigger. -/
theorem auditSteps_repeat (k : Nat) :
    ∀ cbs c : Nat, cbs ≤ 1000 → c + k ≤ 500 →
      auditSteps ⟨cbs, c, [1000], [], []⟩ (List.replicate k c6Block) =
        (⟨cbs, c + k, [1000], [], []⟩,
          List.replicate k (AuditEvent.dupProcessed 1000)) := by
  induction k with
  | zero => intro cbs c _ _; simp [auditSteps]
  | succ k' ih =>
      intro cbs c hcbs hck
      rw [List.replicate_succ, List.replicate_succ]
      simp only [auditSteps]
      have h1 : ¬ ((1000 : Nat) < cbs) := by omega
      have h2 : c < 500 := by omega
      have hstep : auditStep ⟨cbs, c, [1000], [], []⟩ c6Block =
          (⟨cbs, c + 1, [1000], [], []⟩, [AuditEvent.dupProcessed 1000]) := by
        simp [auditStep, c6Block, slotInsert, h1, h2]
      rw [hstep]
      rw [ih cbs (c + 1) hcbs (by omega)]
      have : c + 1 + k' = c + (k' + 1) := by omega
      rw [this]
      simp

/-- The trace behind the C6 counterexample: 1001 arrivals of the processed
block at slot 1000 (the 501st triggers the first cleanup, which retains
everything because the threshold is still 0 and only then sets the threshold
to 800), followed by a processed block at slot 2000 that triggers the second
cleanup. -/
def c6Trace : List AuditBlock := List.replicate 1001 c6Block ++ [⟨2000, .processed⟩]

/-- The first 501 blocks of the counterexample traces: one fresh recording,
499 duplicates, then the 501st block triggers the first cleanup (which
retains everything, the threshold still being 0) and sets the threshold to
1000 − 200 = 800. -/
theorem auditSteps_rep501 :
    auditSteps initAudit (List.replicate 501 c6Block) =
      (⟨800, 0, [1000], [], []⟩,
        List.replicate 500 (AuditEvent.dupProcessed 1000)) := by
  rw [show (501 : Nat) = 1 + (499 + 1) by norm_num, List.replicate_add,
    List.replicate_add]
  have A : auditSteps initAudit (List.replicate 1 c6Block) =
      (⟨0, 1, [1000], [], []⟩, []) := by decide
  have B : auditSteps ⟨0, 1, [1000], [], []⟩ (List.replicate 499 c6Block) =
      (⟨0, 1 + 499, [1000], [], []⟩,
        List.replicate 499 (AuditEvent.dupProcessed 1000)) :=
    auditSteps_repeat 499 0 1 (by omega) (by omega)
  have C : auditSteps ⟨0, 1 + 499, [1000], [], []⟩ (List.replicate 1 c6Block) =
      (⟨800, 0, [1000], [], []⟩, [AuditEvent.dupProcessed 1000]) := by decide
  rw [auditSteps_append, A]
  simp only []
  rw [auditSteps_append, B]
  simp only []
  rw [C]
  simp only [List.nil_append]
  rw [show ([AuditEvent.dupProcessed 1000] : List AuditEvent) =
        List.replicate 1 (AuditEvent.dupProcessed 1000) from rfl,
    ← List.replicate_add]

/-- The claim predicts that the cleanup triggered by the block at slot 2000
drops every record with slot < 2000 − 200 = 1800, in particular the slot
1000 record. In the code the `retain` runs with the OLD threshold 800 (set
by the previous cleanup) and only afterwards stores 1800, so the slot-1000
record survives the cleanup. -/
theorem audit_cleanup_keeps_stale_record :
    (auditRun c6Trace).1.saw_processed_at = [2000, 1000] ∧
      (auditRun c6Trace).1.cleanup_before_slot = 1800 ∧
      (auditRun c6Trace).1.slots_since_last_cleanup = 0 ∧
      (1000 : Nat) < 2000 - 200 := by
  have hstate : (auditRun c6Trace).1 = ⟨1800, 0, [2000, 1000], [], []⟩ := by
    unfold auditRun c6Trace
    rw [show (1001 : Nat) = 501 + 500 by norm_num, List.replicate_add]
    rw [auditSteps_append_fst, auditSteps_append_fst]
    rw [show (auditSteps initAudit (List.replicate 501 c6Block)).1 =
          ⟨800, 0, [1000], [], []⟩ by rw [auditSteps_rep501]]
    have s4 : (auditSteps ⟨800, 0, [1000], [], []⟩ (List.replicate 500 c6Block)).1 =
        ⟨800, 0 + 500, [1000], [], []⟩ := by
      rw [auditSteps_repeat 500 800 0 (by omega) (by omega)]
    rw [s4]
    decide
  rw [hstate]
  exact ⟨rfl, rfl, rfl, by omega⟩

/-- The trace behind the C7 counterexample: 501 processed blocks at slot
1000 (so that the first cleanup has set the skip threshold to 800), then a
confirmed block at slot 500. -/
def c7Trace : List AuditBlock := List.replicate 501 c6Block ++ [⟨500, .confirmed⟩]

/-- The final block of `c7Trace` arrives at confirmed commitment for slot
500, which has no processed observation recorded, yet the auditor logs no
`confirmedWithoutProcessed` error: the block is skipped by the
`block.slot < cleanup_before_slot` check. The only errors of the whole run
are the 500 duplicate-processed reports for slot 1000. -/
theorem audit_skip_suppresses_report :
    (auditRun c7Trace).2 = List.replicate 500 (AuditEvent.dupProcessed 1000) ∧
      AuditEvent.confirmedWithoutProcessed 500 ∉ (auditRun c7Trace).2 ∧
      (500 : Nat) ∉ ((auditSteps initAudit (List.replicate 501 c6Block)).1).saw_processed_at := by
  have hskip : auditSteps ⟨800, 0, [1000], [], []⟩ ([⟨500, .confirmed⟩] : List AuditBlock) =
      (⟨800, 0, [1000], [], []⟩, []) := by decide
  have hrun : auditRun c7Trace =
      (⟨800, 0, [1000], [], []⟩,
        List.replicate 500 (AuditEvent.dupProcessed 1000)) := by
    unfold auditRun c7Trace
    rw [auditSteps_append, auditSteps_rep501]
    simp only []
    rw [hskip]
    simp only []
    rw [List.append_nil]
  refine ⟨by rw [hrun], ?_, by rw [auditSteps_rep501]; decide⟩
  rw [hrun]
  simp only []
  intro hmem
  have := List.eq_of_mem_replicate hmem
  simp at this

theorem slotInsert_mem (l : List Nat) (s x : Nat) :
    x ∈ slotInsert l s ↔ x = s ∨ x ∈ l := by
  unfold slotInsert
  split_ifs with h
  · constructor
    · exact Or.inr
    · rintro (rfl | hx)
      · exact h
      · exact hx
  · simp [List.mem_cons]

/-- Amended C6: the periodic cleanup (which runs on the 501st block after
the previous cleanup) retains exactly the records with
slot ≥ `cleanup_before_slot`, the OLD threshold set by the PREVIOUS cleanup
(that cleanup's trigger slot − 200); the triggering block's
`slot − 200` — computed in u64 arithmetic, so it wraps in a release build
when the trigger slot is below 200 (a debug build panics there) — is only
stored as the new threshold afterwards, to be used for skipping old
arrivals and by the next cleanup; for trigger slots ≥ 200 (any valid u64)
the stored threshold is the plain `slot − 200`. On the other blocks no
record is dropped and the counter is merely incremented. -/
theorem audit_cleanup_uses_old_threshold (st : AuditState) (b : AuditBlock)
    (hslot : st.cleanup_before_slot ≤ b.slot) :
    (500 ≤ st.slots_since_last_cleanup →
      (auditStep st b).1.cleanup_before_slot = u64sub b.slot 200 ∧
        (200 ≤ b.slot → b.slot < U64_MOD →
          (auditStep st b).1.cleanup_before_slot = b.slot - 200) ∧
        (auditStep st b).1.slots_since_last_cleanup = 0 ∧
        ∀ l x, x ∈ (auditStep st b).1.saw l ↔
          st.cleanup_before_slot ≤ x ∧ ((b.level = l ∧ x = b.slot) ∨ x ∈ st.saw l)) ∧
    (st.slots_since_last_cleanup < 500 →
      (auditStep st b).1.cleanup_before_slot = st.cleanup_before_slot ∧
        (auditStep st b).1.slots_since_last_cleanup = st.slots_since_last_cleanup + 1 ∧
        ∀ l x, x ∈ (auditStep st b).1.saw l ↔
          (b.level = l ∧ x = b.slot) ∨ x ∈ st.saw l) := by
  have hns : ¬ (b.slot < st.cleanup_before_slot) := by omega
  constructor
  · intro h500
    have hct : ¬ (st.slots_since_last_cleanup < 500) := by omega
    refine ⟨by simp [auditStep, hns, hct], ?_, by simp [auditStep, hns, hct], ?_⟩
    · intro h200 hlt
      have hw : u64sub b.slot 200 = b.slot - 200 := by
        unfold u64sub U64_MOD
        unfold U64_MOD at hlt
        omega
      simp [auditStep, hns, hct, hw]
    intro l x
    cases l <;> cases hb : b.level <;>
      simp [auditStep, hns, hct, hb, AuditState.saw, List.mem_filter,
        slotInsert_mem] <;> tauto
  · intro hct
    refine ⟨by simp [auditStep, hns, hct], by simp [auditStep, hns, hct], ?_⟩
    intro l x
    cases l <;> cases hb : b.level <;>
      simp [auditStep, hns, hct, hb, AuditState.saw, slotInsert_mem]

/-- Witness for `audit_cleanup_uses_old_threshold`: a cleanup-triggering
state whose threshold is 800, receiving a processed block at slot 2000; the
slot-1000 record survives because 1000 ≥ 800, although 1000 < 1800. -/
theorem audit_cleanup_uses_old_threshold_witness :
    ((auditStep ⟨800, 500, [1000], [], []⟩ ⟨2000, .processed⟩).1.cleanup_before_slot
        = u64sub 2000 200 ∧
      (200 ≤ 2000 → 2000 < U64_MOD →
        (auditStep ⟨800, 500, [1000], [], []⟩ ⟨2000, .processed⟩).1.cleanup_before_slot
          = 2000 - 200) ∧
      (auditStep ⟨800, 500, [1000], [], []⟩ ⟨2000, .processed⟩).1.slots_since_last_cleanup
        = 0 ∧
      ∀ l x, x ∈ (auditStep ⟨800, 500, [1000], [], []⟩ ⟨2000, .processed⟩).1.saw l ↔
        800 ≤ x ∧ ((Level.processed = l ∧ x = 2000) ∨
          x ∈ (⟨800, 500, [1000], [], []⟩ : AuditState).saw l)) :=
  (audit_cleanup_uses_old_threshold ⟨800, 500, [1000], [], []⟩ ⟨2000, .processed⟩
    (by decide)).1 (by decide)

/-- The commitment levels at which slot `s` appears in a trace, in trace
order. -/
def levelsAt (t : List AuditBlock) (s : Nat) : List Level :=
  (t.filter (fun b => b.slot == s)).map AuditBlock.level

/-- A trace arrives in correct commitment-ladder order: each slot is seen as
a prefix of processed, then confirmed, then finalized — never skipping or
repeating a level. -/
def LadderTrace (t : List AuditBlock) : Prop :=
  ∀ s ∈ t.map AuditBlock.slot,
    (levelsAt t s).isPrefixOf [Level.processed, Level.confirmed, Level.finalized] = true

theorem levelsAt_append (t1 t2 : List AuditBlock) (s : Nat) :
    levelsAt (t1 ++ t2) s = levelsAt t1 s ++ levelsAt t2 s := by
  simp [levelsAt, List.filter_append]

theorem levelsAt_cons_self (b : AuditBlock) (bs : List AuditBlock) :
    levelsAt (b :: bs) b.slot = b.level :: levelsAt bs b.slot := by
  simp [levelsAt, List.filter_cons]

theorem mem_levelsAt {t : List AuditBlock} {s : Nat} {l : Level} :
    l ∈ levelsAt t s ↔ (⟨s, l⟩ : AuditBlock) ∈ t := by
  simp only [levelsAt, List.mem_map, List.mem_filter, beq_iff_eq]
  constructor
  · rintro ⟨b, ⟨hb, hslot⟩, hlev⟩
    have : b = ⟨s, l⟩ := by
      cases b
      simp_all
    exact this ▸ hb
  · intro h
    exact ⟨⟨s, l⟩, ⟨h, rfl⟩, rfl⟩

theorem prefix3 {α : Type} {l : List α} {a b c : α}
    (h : l.IsPrefix [a, b, c]) :
    l = [] ∨ l = [a] ∨ l = [a, b] ∨ l = [a, b, c] := by
  rcases h with ⟨r, hr⟩
  rcases l with _ | ⟨x, _ | ⟨y, _ | ⟨z, _ | ⟨w, l'⟩⟩⟩⟩ <;> simp_all

/-- In a ladder trace, what a block finds before it: a processed block finds
nothing for its slot, a confirmed block finds exactly a processed record,
and a finalized block finds processed and confirmed. -/
theorem ladder_mid {pre bs : List AuditBlock} {b : AuditBlock}
    (h : LadderTrace (pre ++ b :: bs)) :
    (b.level = .processed → levelsAt pre b.slot = []) ∧
      (b.level = .confirmed → levelsAt pre b.slot = [.processed]) ∧
      (b.level = .finalized → levelsAt pre b.slot = [.processed, .confirmed]) := by
  have hs : b.slot ∈ (pre ++ b :: bs).map AuditBlock.slot := by simp
  have hp := h b.slot hs
  rw [List.isPrefixOf_iff_prefix] at hp
  rw [levelsAt_append, levelsAt_cons_self] at hp
  rcases prefix3 hp with h' | h' | h' | h' <;>
    rcases hL : levelsAt pre b.slot with _ | ⟨x, _ | ⟨y, _ | ⟨z, L'⟩⟩⟩ <;>
      rw [hL] at h' <;>
        refine ⟨fun hb => ?_, fun hb => ?_, fun hb => ?_⟩ <;>
          simp_all

theorem auditStep_skip (st : AuditState) (b : AuditBlock)
    (h : b.slot < st.cleanup_before_slot) : auditStep st b = (st, []) := by
  simp [auditStep, h]

theorem auditStep_report_iff (st : AuditState) (b : AuditBlock)
    (hle : st.cleanup_before_slot ≤ b.slot) :
    (AuditEvent.confirmedWithoutProcessed b.slot ∈ (auditStep st b).2 ↔
        b.level = .confirmed ∧ b.slot ∉ st.saw_processed_at) ∧
      (AuditEvent.finalizedWithoutProcessed b.slot ∈ (auditStep st b).2 ↔
        b.level = .finalized ∧ b.slot ∉ st.saw_processed_at) ∧
      (AuditEvent.processedAfterConfirmed b.slot ∈ (auditStep st b).2 ↔
        b.level = .processed ∧ b.slot ∈ st.saw_confirmed_at) ∧
      (AuditEvent.processedAfterFinalized b.slot ∈ (auditStep st b).2 ↔
        b.level = .processed ∧ b.slot ∈ st.saw_finalized_at) := by
  have hns : ¬ (b.slot < st.cleanup_before_slot) := by omega
  refine ⟨?_, ?_, ?_, ?_⟩ <;>
    cases hb : b.level <;>
      (simp [auditStep, hns, hb]; try (split_ifs <;> simp_all))

/-- The auditor run over a ladder-ordered trace short enough that no cleanup
fires (at most 500 blocks) emits no error at all. -/
theorem audit_ladder_aux (suf : List AuditBlock) :
    ∀ (pre : List AuditBlock) (st : AuditState),
      st.cleanup_before_slot = 0 →
      st.slots_since_last_cleanup = pre.length →
      (∀ s, s ∈ st.saw_processed_at ↔ (⟨s, .processed⟩ : AuditBlock) ∈ pre) →
      (∀ s, s ∈ st.saw_confirmed_at ↔ (⟨s, .confirmed⟩ : AuditBlock) ∈ pre) →
      (∀ s, s ∈ st.saw_finalized_at ↔ (⟨s, .finalized⟩ : AuditBlock) ∈ pre) →
      (pre ++ suf).length ≤ 500 →
      LadderTrace (pre ++ suf) →
      (auditSteps st suf).2 = [] := by
  induction suf with
  | nil => intros; rfl
  | cons b bs ih =>
      intro pre st hcbs hct hP hC hF hlen hlad
      obtain ⟨s, lv⟩ := b
      have hns : ¬ (s < st.cleanup_before_slot) := by rw [hcbs]; omega
      have hctlt : st.slots_since_last_cleanup < 500 := by
        rw [hct]
        have : pre.length + (bs.length + 1) ≤ 500 := by simpa using hlen
        omega
      have hmid := @ladder_mid pre bs ⟨s, lv⟩ hlad
      have hlen' : ((pre ++ [(⟨s, lv⟩ : AuditBlock)]) ++ bs).length ≤ 500 := by
        simpa using hlen
      have hlad' : LadderTrace ((pre ++ [(⟨s, lv⟩ : AuditBlock)]) ++ bs) := by
        simpa using hlad
      have hmemP : ∀ x, x ∈ st.saw_processed_at ↔ Level.processed ∈ levelsAt pre x := by
        intro x; rw [hP]; exact mem_levelsAt.symm
      have hmemC : ∀ x, x ∈ st.saw_confirmed_at ↔ Level.confirmed ∈ levelsAt pre x := by
        intro x; rw [hC]; exact mem_levelsAt.symm
      have hmemF : ∀ x, x ∈ st.saw_finalized_at ↔ Level.finalized ∈ levelsAt pre x := by
        intro x; rw [hF]; exact mem_levelsAt.symm
      cases lv
      case processed =>
        have hL : levelsAt pre s = [] := hmid.1 rfl
        have hnotP : s ∉ st.saw_processed_at := by
          rw [hmemP, hL]; simp
        have hnotC : s ∉ st.saw_confirmed_at := by
          rw [hmemC, hL]; simp
        have hnotF : s ∉ st.saw_finalized_at := by
          rw [hmemF, hL]; simp
        have hstep : auditStep st ⟨s, .processed⟩ =
            ({ st with
                saw_processed_at := slotInsert st.saw_processed_at s,
                slots_since_last_cleanup := st.slots_since_last_cleanup + 1 }, []) := by
          simp [auditStep, hns, hctlt, hnotP, hnotC, hnotF]
        show (auditSteps st (⟨s, Level.processed⟩ :: bs)).2 = []
        simp only [auditSteps, hstep, List.nil_append]
        refine ih (pre ++ [⟨s, .processed⟩]) _ (by simpa using hcbs)
          (by simp [hct]) ?_ ?_ ?_ hlen' hlad'
        · intro x
          simp only [slotInsert_mem, hP x, List.mem_append, List.mem_singleton,
            AuditBlock.mk.injEq]
          constructor
          · rintro (rfl | hm)
            · exact Or.inr ⟨rfl, trivial⟩
            · exact Or.inl hm
          · rintro (hm | ⟨rfl, _⟩)
            · exact Or.inr hm
            · exact Or.inl rfl
        · intro x
          simp only [hC x, List.mem_append, List.mem_singleton, AuditBlock.mk.injEq]
          constructor
          · exact Or.inl
          · rintro (hm | ⟨_, hne⟩)
            · exact hm
            · exact absurd hne (by simp)
        · intro x
          simp only [hF x, List.mem_append, List.mem_singleton, AuditBlock.mk.injEq]
          constructor
          · exact Or.inl
          · rintro (hm | ⟨_, hne⟩)
            · exact hm
            · exact absurd hne (by simp)
      case confirmed =>
        have hL : levelsAt pre s = [Level.processed] := hmid.2.1 rfl
        have hinP : s ∈ st.saw_processed_at := by
          rw [hmemP, hL]; simp
        have hnotC : s ∉ st.saw_confirmed_at := by
          rw [hmemC, hL]; simp
        have hnotF : s ∉ st.saw_finalized_at := by
          rw [hmemF, hL]; simp
        have hstep : auditStep st ⟨s, .confirmed⟩ =
            ({ st with
                saw_confirmed_at := slotInsert st.saw_confirmed_at s,
                slots_since_last_cleanup := st.slots_since_last_cleanup + 1 }, []) := by
          simp [auditStep, hns, hctlt, hinP, hnotC, hnotF]
        show (auditSteps st (⟨s, Level.confirmed⟩ :: bs)).2 = []
        simp only [auditSteps, hstep, List.nil_append]
        refine ih (pre ++ [⟨s, .confirmed⟩]) _ (by simpa using hcbs)
          (by simp [hct]) ?_ ?_ ?_ hlen' hlad'
        · intro x
          simp only [hP x, List.mem_append, List.mem_singleton, AuditBlock.mk.injEq]
          constructor
          · exact Or.inl
          · rintro (hm | ⟨_, hne⟩)
            · exact hm
            · exact absurd hne (by simp)
        · intro x
          simp only [slotInsert_mem, hC x, List.mem_append, List.mem_singleton,
            AuditBlock.mk.injEq]
          constructor
          · rintro (rfl | hm)
            · exact Or.inr ⟨rfl, trivial⟩
            · exact Or.inl hm
          · rintro (hm | ⟨rfl, _⟩)
            · exact Or.inr hm
            · exact Or.inl rfl
        · intro x
          simp only [hF x, List.mem_append, List.mem_singleton, AuditBlock.mk.injEq]
          constructor
          · exact Or.inl
          · rintro (hm | ⟨_, hne⟩)
            · exact hm
            · exact absurd hne (by simp)
      case finalized =>
        have hL : levelsAt pre s = [Level.processed, Level.confirmed] := hmid.2.2 rfl
        have hinP : s ∈ st.saw_processed_at := by
          rw [hmemP, hL]; simp
        have hinC : s ∈ st.saw_confirmed_at := by
          rw [hmemC, hL]; simp
        have hnotF : s ∉ st.saw_finalized_at := by
          rw [hmemF, hL]; simp
        have hstep : auditStep st ⟨s, .finalized⟩ =
            ({ st with
                saw_finalized_at := slotInsert st.saw_finalized_at s,
                slots_since_last_cleanup := st.slots_since_last_cleanup + 1 }, []) := by
          simp [auditStep, hns, hctlt, hinP, hinC, hnotF]
        show (auditSteps st (⟨s, Level.finalized⟩ :: bs)).2 = []
        simp only [auditSteps, hstep, List.nil_append]
        refine ih (pre ++ [⟨s, .finalized⟩]) _ (by simpa using hcbs)
          (by simp [hct]) ?_ ?_ ?_ hlen' hlad'
        · intro x
          simp only [hP x, List.mem_append, List.mem_singleton, AuditBlock.mk.injEq]
          constructor
          · exact Or.inl
          · rintro (hm | ⟨_, hne⟩)
            · exact hm
            · exact absurd hne (by simp)
        · intro x
          simp only [hC x, List.mem_append, List.mem_singleton, AuditBlock.mk.injEq]
          constructor
          · exact Or.inl
          · rintro (hm | ⟨_, hne⟩)
            · exact hm
            · exact absurd hne (by simp)
        · intro x
          simp only [slotInsert_mem, hF x, List.mem_append, List.mem_singleton,
            AuditBlock.mk.injEq]
          constructor
          · rintro (rfl | hm)
            · exact Or.inr ⟨rfl, trivial⟩
            · exact Or.inl hm
          · rintro (hm | ⟨rfl, _⟩)
            · exact Or.inr hm
            · exact Or.inl rfl

theorem audit_ladder_no_errors (t : List AuditBlock) (hlen : t.length ≤ 500)
    (hlad : LadderTrace t) : (auditRun t).2 = [] := by
  refine audit_ladder_aux t [] initAudit rfl rfl ?_ ?_ ?_ (by simpa using hlen)
    (by simpa using hlad) <;> simp [initAudit]

/-- Amended C7: the auditor reports by error-level logging (never by
crashing) exactly as follows. A block whose slot is below the current
cleanup threshold is skipped without any report. For every other block, a
confirmed or finalized arrival whose slot has no processed record is
reported, and a processed arrival for a slot already recorded at confirmed
or finalized commitment is reported — and only under those conditions.
Arrivals in correct ladder order produce no report at all, provided the
session is short enough (at most 500 blocks) that no cleanup has dropped
records or raised the skip threshold. -/
theorem audit_report_rules :
    (∀ (st : AuditState) (b : AuditBlock), b.slot < st.cleanup_before_slot →
        auditStep st b = (st, [])) ∧
      (∀ (st : AuditState) (b : AuditBlock), st.cleanup_before_slot ≤ b.slot →
        (AuditEvent.confirmedWithoutProcessed b.slot ∈ (auditStep st b).2 ↔
            b.level = .confirmed ∧ b.slot ∉ st.saw_processed_at) ∧
          (AuditEvent.finalizedWithoutProcessed b.slot ∈ (auditStep st b).2 ↔
            b.level = .finalized ∧ b.slot ∉ st.saw_processed_at) ∧
          (AuditEvent.processedAfterConfirmed b.slot ∈ (auditStep st b).2 ↔
            b.level = .processed ∧ b.slot ∈ st.saw_confirmed_at) ∧
          (AuditEvent.processedAfterFinalized b.slot ∈ (auditStep st b).2 ↔
            b.level = .processed ∧ b.slot ∈ st.saw_finalized_at)) ∧
      (∀ t : List AuditBlock, t.length ≤ 500 → LadderTrace t →
        (auditRun t).2 = []) :=
  ⟨auditStep_skip, auditStep_report_iff, audit_ladder_no_errors⟩

/-- Witness for `audit_report_rules`: a skipped confirmed arrival below the
threshold, a reported confirmed arrival without processed record, and an
error-free ladder-ordered run. -/
theorem audit_report_rules_witness :
    auditStep ⟨800, 0, [1000], [], []⟩ ⟨500, .confirmed⟩ =
        (⟨800, 0, [1000], [], []⟩, []) ∧
      (AuditEvent.confirmedWithoutProcessed 7 ∈
          (auditStep initAudit ⟨7, .confirmed⟩).2 ↔
        Level.confirmed = Level.confirmed ∧ (7 : Nat) ∉ ([] : List Nat)) ∧
      (auditRun [⟨3, .processed⟩, ⟨3, .confirmed⟩, ⟨3, .finalized⟩]).2 = [] :=
  ⟨audit_report_rules.1 ⟨800, 0, [1000], [], []⟩ ⟨500, .confirmed⟩ (by decide),
    (audit_report_rules.2.1 initAudit ⟨7, .confirmed⟩ (by decide)).1,
    audit_report_rules.2.2 [⟨3, .processed⟩, ⟨3, .confirmed⟩, ⟨3, .finalized⟩]
      (by decide) (by unfold LadderTrace; decide)⟩

/-! ## RPC bridge (bridge.rs)

`LiteBridge::get_latest_blockhash` (lines 175-208) destructures the
`BlockInformation` returned by the block-information store's
`get_latest_block` for the requested commitment, and builds the RPC
response. The store itself lives outside the excerpted sources; it is
modelled as the `Option BlockInformation` it yields. u64 addition is
modelled with an explicit `% 2^64`. -/

/-- u64 wrapping addition. -/
def u64add (a b : Nat) : Nat := (a + b) % U64_MOD

/-- The retained projection of a produced block served by the
block-information store. -/
structure BlockInformation where
  slot : Nat
  block_height : Nat
  blockhash : String
  block_time : Nat
  previous_blockhash : String
deriving DecidableEq, Repr

structure RpcResponseContext where
  slot : Nat
deriving DecidableEq, Repr

structure RpcBlockhash where
  blockhash : String
  last_valid_block_height : Nat
deriving DecidableEq, Repr

structure RpcResponse (α : Type) where
  context : RpcResponseContext
  value : α
deriving DecidableEq, Repr

/-- `LiteBridge::get_latest_blockhash`, given the latest block the store
holds at the requested commitment (`none` when the store has none). -/
def get_latest_blockhash (latest : Option BlockInformation) :
    Option (RpcResponse RpcBlockhash) :=
  latest.map (fun b =>
    { context := { slot := b.slot },
      value := { blockhash := b.blockhash,
                 last_valid_block_height := u64add b.block_height 150 } })

/-- C3: whenever the store has a latest block `b` at the requested
commitment, `get_latest_blockhash` answers with context slot `b.slot`,
blockhash `b.blockhash` and `last_valid_block_height = b.block_height + 150`
(the addition does not wrap for any block height a real chain can reach). -/
theorem get_latest_blockhash_spec (latest : Option BlockInformation)
    (b : BlockInformation) (hb : latest = some b)
    (hov : b.block_height + 150 < U64_MOD) :
    get_latest_blockhash latest =
      some { context := { slot := b.slot },
             value := { blockhash := b.blockhash,
                        last_valid_block_height := b.block_height + 150 } } := by
  subst hb
  simp [get_latest_blockhash, u64add, Nat.mod_eq_of_lt hov]

/-- Witness for `get_latest_blockhash_spec`. -/
theorem get_latest_blockhash_spec_witness :
    get_latest_blockhash (some ⟨42, 900, "H", 0, "P"⟩) =
      some { context := { slot := 42 },
             value := { blockhash := "H", last_valid_block_height := 900 + 150 } } :=
  get_latest_blockhash_spec _ ⟨42, 900, "H", 0, "P"⟩ rfl (by decide)

/-! `LiteBridge::send_transaction` (bridge.rs lines 334-381). The
`encoding.decode` helper and the transaction service live outside the
excerpted sources; both are parameters of the embedding. Errors are the
`jsonrpsee` custom error strings the code builds. -/

inductive BinaryEncoding where
  | base58
  | base64
deriving DecidableEq, Repr

structure SendTransactionConfig where
  encoding : BinaryEncoding
  max_retries : Option Nat
deriving DecidableEq, Repr

/-- `MAX_BASE58_SIZE` (bridge.rs line 342), copied from solana labs code. -/
def MAX_BASE58_SIZE : Nat := 1683

/-- `MAX_BASE64_SIZE` (bridge.rs line 343). -/
def MAX_BASE64_SIZE : Nat := 1644

/-- The `expected_size` selected per encoding (bridge.rs lines 350-353). -/
def txSizeLimit : BinaryEncoding → Nat
  | .base58 => MAX_BASE58_SIZE
  | .base64 => MAX_BASE64_SIZE

/-- `LiteBridge::send_transaction`: reject oversized payloads before
decoding, propagate decode failures, otherwise hand the raw bytes and
`max_retries` to the transaction service and return its signature or
error. -/
def send_transaction
    (decode : BinaryEncoding → String → Except String (List Nat))
    (service : List Nat → Option Nat → Except String String)
    (tx : String) (cfg : SendTransactionConfig) : Except String String :=
  let expected_size := txSizeLimit cfg.encoding
  if tx.length > expected_size then
    .error ("Transaction too large, expected : " ++ toString expected_size ++
      " transaction len " ++ toString tx.length)
  else
    match decode cfg.encoding tx with
    | .error err => .error err
    | .ok raw_tx =>
        match service raw_tx cfg.max_retries with
        | .ok sig => .ok sig
        | .error e => .error e

/-- C4: (1) an encoded transaction longer than 1683 (base58) resp. 1644
(base64) characters is rejected as too large for every decoder and every
transaction service — in particular nothing is forwarded; (2) within the
limit, a failing decode yields exactly the decode error; (3) otherwise the
decoded bytes are submitted together with `max_retries` and the service's
signature (or error) is returned unchanged. -/
theorem send_transaction_spec :
    (∀ decode service (tx : String) (cfg : SendTransactionConfig),
        txSizeLimit cfg.encoding < tx.length →
        send_transaction decode service tx cfg =
          .error ("Transaction too large, expected : " ++
            toString (txSizeLimit cfg.encoding) ++ " transaction len " ++
            toString tx.length)) ∧
      (∀ decode service (tx : String) (cfg : SendTransactionConfig) (err : String),
        tx.length ≤ txSizeLimit cfg.encoding →
        decode cfg.encoding tx = .error err →
        send_transaction decode service tx cfg = .error err) ∧
      (∀ decode service (tx : String) (cfg : SendTransactionConfig) (raw : List Nat),
        tx.length ≤ txSizeLimit cfg.encoding →
        decode cfg.encoding tx = .ok raw →
        send_transaction decode service tx cfg = service raw cfg.max_retries) := by
  refine ⟨?_, ?_, ?_⟩
  · intro decode service tx cfg h
    simp [send_transaction, h]
  · intro decode service tx cfg err hlen hdec
    simp [send_transaction, Nat.not_lt.mpr hlen, hdec]
  · intro decode service tx cfg raw hlen hdec
    simp only [send_transaction, gt_iff_lt, Nat.not_lt.mpr hlen, if_false, hdec]
    cases service raw cfg.max_retries <;> rfl

/-- A 1700-character payload for the too-large witness. -/
def c4Tx : String := ⟨List.replicate 1700 'a'⟩

/-- Witness for `send_transaction_spec`, all three clauses. -/
theorem send_transaction_spec_witness :
    send_transaction (fun _ _ => .error "nope") (fun _ _ => .ok "SIG") c4Tx
        ⟨.base58, none⟩ =
      .error ("Transaction too large, expected : " ++
        toString (txSizeLimit .base58) ++ " transaction len " ++
        toString c4Tx.length) ∧
    send_transaction (fun _ _ => .error "bad base58") (fun _ _ => .ok "SIG") "xx"
        ⟨.base58, none⟩ = .error "bad base58" ∧
    send_transaction (fun _ _ => .ok [1, 2, 3]) (fun _ _ => .ok "SIG") "xx"
        ⟨.base64, some 5⟩ = (fun (_ : List Nat) (_ : Option Nat) =>
          (.ok "SIG" : Except String String)) [1, 2, 3] (some 5) :=
  ⟨send_transaction_spec.1 _ _ c4Tx ⟨.base58, none⟩
      (by
        show txSizeLimit .base58 < (String.mk (List.replicate 1700 'a')).length
        rw [String.length_mk, List.length_replicate]
        decide),
    send_transaction_spec.2.1 _ _ "xx" ⟨.base58, none⟩ "bad base58"
      (by decide) rfl,
    send_transaction_spec.2.2 _ _ "xx" ⟨.base64, some 5⟩ [1, 2, 3]
      (by decide) rfl⟩

/-! ## Stake map actions (stake_vote/src/stake.rs)

`StakeStore::process_stake_action` applies a `StakeAction` to the
`StakeMap = HashMap<Pubkey, StoredStake>`; the hash map is modelled by its
extensional semantics, a partial function on pubkeys (pubkeys as `Nat`; the
opaque `Delegation` payload as `Nat`). The `TakableContent` impl replays the
deferred action queue in insertion order via exactly this function, so
sequences of actions are the left fold of `process_stake_action`. -/

abbrev Pubkey := Nat

structure StoredStake where
  pubkey : Pubkey
  lamports : Nat
  stake : Nat
  last_update_slot : Nat
  write_version : Nat
deriving DecidableEq, Repr

abbrev StakeMap := Pubkey → Option StoredStake

inductive StakeAction where
  | notify (stake : StoredStake)
  | remove (pk : Pubkey) (slot : Nat)
  | none
deriving Repr

/-- `StakeStore::notify_stake` (stake.rs lines 119-141): insert when the
pubkey is vacant; when occupied, overwrite only if the stored entry's
`last_update_slot` is less than or equal to the incoming one. -/
def notify_stake (map : StakeMap) (stake : StoredStake) : StakeMap :=
  fun pk =>
    if pk = stake.pubkey then
      match map stake.pubkey with
      | some strstake =>
          if strstake.last_update_slot ≤ stake.last_update_slot then some stake
          else some strstake
      | Option.none => some stake
    else map pk

/-- `StakeStore::remove_stake` (stake.rs lines 143-152): delete the entry
iff it exists and its `last_update_slot` is less than or equal to the
action's slot. -/
def remove_stake (stakes : StakeMap) (account_pk : Pubkey) (update_slot : Nat) :
    StakeMap :=
  if ((stakes account_pk).map
        (fun stake => decide (stake.last_update_slot ≤ update_slot))).getD false then
    fun pk => if pk = account_pk then Option.none else stakes pk
  else stakes

/-- `StakeStore::process_stake_action` (stake.rs lines 110-118). -/
def process_stake_action (stakes : StakeMap) (action : StakeAction) : StakeMap :=
  match action with
  | .notify stake => notify_stake stakes stake
  | .remove account_pk slot => remove_stake stakes account_pk slot
  | .none => stakes

/-- Replay of a deferred action queue in insertion order
(`TakableContent<StakeAction> for StakeContent`, stake.rs lines 50-54,
driven by `utils::merge`). -/
def applyActions (stakes : StakeMap) (actions : List StakeAction) : StakeMap :=
  actions.foldl process_stake_action stakes

/-- C5: the per-action semantics of the stake map. A `Notify` leaves other
pubkeys untouched, inserts when the pubkey is absent, and replaces an
existing entry iff the stored `last_update_slot` is ≤ the incoming one
(newer slot wins, ties to the notification). A `Remove(pk, slot)` leaves
other pubkeys untouched and deletes the entry iff one exists with
`last_update_slot ≤ slot`. Action sequences are applied in insertion
order. -/
theorem stake_action_spec :
    (∀ (m : StakeMap) (s : StoredStake) (pk : Pubkey), pk ≠ s.pubkey →
        process_stake_action m (.notify s) pk = m pk) ∧
      (∀ (m : StakeMap) (s : StoredStake), m s.pubkey = Option.none →
        process_stake_action m (.notify s) s.pubkey = some s) ∧
      (∀ (m : StakeMap) (s old : StoredStake), m s.pubkey = some old →
        process_stake_action m (.notify s) s.pubkey =
          if old.last_update_slot ≤ s.last_update_slot then some s else some old) ∧
      (∀ (m : StakeMap) (pk' : Pubkey) (slot : Nat) (pk : Pubkey), pk ≠ pk' →
        process_stake_action m (.remove pk' slot) pk = m pk) ∧
      (∀ (m : StakeMap) (pk' : Pubkey) (slot : Nat) (old : StoredStake),
        m pk' = some old →
        process_stake_action m (.remove pk' slot) pk' =
          if old.last_update_slot ≤ slot then Option.none else some old) ∧
      (∀ (m : StakeMap) (pk' : Pubkey) (slot : Nat), m pk' = Option.none →
        process_stake_action m (.remove pk' slot) pk' = Option.none) ∧
      (∀ (m : StakeMap) (a : StakeAction) (rest : List StakeAction),
        applyActions m (a :: rest) = applyActions (process_stake_action m a) rest) := by
  refine ⟨?_, ?_, ?_, ?_, ?_, ?_, ?_⟩
  · intro m s pk h
    simp [process_stake_action, notify_stake, h]
  · intro m s h
    simp [process_stake_action, notify_stake, h]
  · intro m s old h
    simp [process_stake_action, notify_stake, h]
  · intro m pk' slot pk h
    simp only [process_stake_action, remove_stake]
    split_ifs <;> simp [h]
  · intro m pk' slot old h
    simp only [process_stake_action, remove_stake, h, Option.map_some,
      Option.getD_some]
    split_ifs with h1 h2 h2 <;> simp_all
  · intro m pk' slot h
    simp [process_stake_action, remove_stake, h]
  · intro m a rest
    rfl

/-- Witness for `stake_action_spec` at concrete maps and actions. -/
theorem stake_action_spec_witness :
    process_stake_action (fun _ => Option.none) (.notify ⟨7, 1, 0, 5, 0⟩) 3 =
        (fun _ => (Option.none : Option StoredStake)) 3 ∧
      process_stake_action (fun _ => Option.none) (.notify ⟨7, 1, 0, 5, 0⟩) 7 =
        some ⟨7, 1, 0, 5, 0⟩ ∧
      process_stake_action
          (fun pk => if pk = 7 then some ⟨7, 1, 0, 9, 0⟩ else Option.none)
          (.notify ⟨7, 2, 0, 5, 0⟩) 7 =
        (if (9 : Nat) ≤ 5 then some ⟨7, 2, 0, 5, 0⟩ else some ⟨7, 1, 0, 9, 0⟩) ∧
      process_stake_action
          (fun pk => if pk = 7 then some ⟨7, 1, 0, 4, 0⟩ else Option.none)
          (.remove 7 5) 7 =
        (if (4 : Nat) ≤ 5 then Option.none else some ⟨7, 1, 0, 4, 0⟩) :=
  ⟨stake_action_spec.1 _ ⟨7, 1, 0, 5, 0⟩ 3 (by decide),
    stake_action_spec.2.1 _ ⟨7, 1, 0, 5, 0⟩ rfl,
    stake_action_spec.2.2.1 _ ⟨7, 2, 0, 5, 0⟩ ⟨7, 1, 0, 9, 0⟩ rfl,
    stake_action_spec.2.2.2.2.1 _ 7 5 ⟨7, 1, 0, 4, 0⟩ rfl⟩

/-! ## Benchmark metrics (bench/src/metrics.rs)

`Metric`'s `f64` fields are modelled as exact rationals and `Duration` as a
count of nanoseconds; `as_millis`/`as_micros` truncate and `from_micros`
scales back up, exactly as in Rust. The `0.01` literal of `finalize` is the
rational 1/100. -/

def durationAsMillis (ns : Nat) : Nat := ns / 1000000

def durationAsMicros (ns : Nat) : Nat := ns / 1000

def durationFromMicros (us : Nat) : Nat := us * 1000

structure Metric where
  txs_sent : Nat
  txs_confirmed : Nat
  txs_un_confirmed : Nat
  average_confirmation_time_ms : ℚ
  average_time_to_send_txs : ℚ
  average_transaction_bytes : ℚ
  send_tps : ℚ
  total_sent_time : Nat
  total_transaction_bytes : Nat
  total_confirmation_time : Nat
  total_gross_send_time_ms : ℚ
deriving DecidableEq, Repr

/-- The all-zero metric (`Metric::default()`). -/
def zeroMetric : Metric := ⟨0, 0, 0, 0, 0, 0, 0, 0, 0, 0, 0⟩

/-- `Metric::finalize` (metrics.rs lines 52-69). -/
def Metric.finalize (m : Metric) : Metric :=
  let m1 :=
    if m.txs_sent > 0 then
      { m with
        average_time_to_send_txs :=
          (durationAsMillis m.total_sent_time : ℚ) / (m.txs_sent : ℚ),
        average_transaction_bytes :=
          (m.total_transaction_bytes : ℚ) / (m.txs_sent : ℚ) }
    else m
  let m2 :=
    if m1.total_gross_send_time_ms > 1 / 100 then
      { m1 with send_tps := (m1.txs_sent : ℚ) / (m1.total_gross_send_time_ms / 1000) }
    else m1
  if m2.txs_confirmed > 0 then
    { m2 with
      average_confirmation_time_ms :=
        (durationAsMillis m2.total_confirmation_time : ℚ) / (m2.txs_confirmed : ℚ) }
  else m2

/-- `Metric::add_successful_transaction`. -/
def Metric.add_successful_transaction (m : Metric)
    (time_to_send time_to_confrim transaction_bytes : Nat) : Metric :=
  { m with
    total_sent_time := m.total_sent_time + time_to_send,
    total_confirmation_time := m.total_confirmation_time + time_to_confrim,
    total_transaction_bytes := m.total_transaction_bytes + transaction_bytes,
    txs_confirmed := m.txs_confirmed + 1,
    txs_sent := m.txs_sent + 1 }

/-- `Metric::add_unsuccessful_transaction`. -/
def Metric.add_unsuccessful_transaction (m : Metric)
    (time_to_send transaction_bytes : Nat) : Metric :=
  { m with
    total_sent_time := m.total_sent_time + time_to_send,
    total_transaction_bytes := m.total_transaction_bytes + transaction_bytes,
    txs_un_confirmed := m.txs_un_confirmed + 1,
    txs_sent := m.txs_sent + 1 }

/-- `Metric::set_total_gross_send_time`. -/
def Metric.set_total_gross_send_time (m : Metric) (total_gross_send_time_ms : ℚ) :
    Metric :=
  { m with total_gross_send_time_ms := total_gross_send_time_ms }

/-- `impl AddAssign<&Self> for Metric` (metrics.rs lines 88-102): sum the
counters, totals and `send_tps`, then finalize. -/
def metricAddAssign (acc rhs : Metric) : Metric :=
  Metric.finalize
    { acc with
      txs_sent := acc.txs_sent + rhs.txs_sent,
      txs_confirmed := acc.txs_confirmed + rhs.txs_confirmed,
      txs_un_confirmed := acc.txs_un_confirmed + rhs.txs_un_confirmed,
      total_confirmation_time := acc.total_confirmation_time + rhs.total_confirmation_time,
      total_sent_time := acc.total_sent_time + rhs.total_sent_time,
      total_transaction_bytes := acc.total_transaction_bytes + rhs.total_transaction_bytes,
      total_gross_send_time_ms := acc.total_gross_send_time_ms + rhs.total_gross_send_time_ms,
      send_tps := acc.send_tps + rhs.send_tps }

/-- `impl DivAssign<u64> for Metric` (metrics.rs lines 104-124): no-op at
zero runs, otherwise divide everything and finalize. Durations are divided
at microsecond precision as in the Rust code. -/
def metricDivAssign (m : Metric) (rhs : Nat) : Metric :=
  if rhs = 0 then m
  else
    Metric.finalize
      { m with
        txs_sent := m.txs_sent / rhs,
        txs_confirmed := m.txs_confirmed / rhs,
        txs_un_confirmed := m.txs_un_confirmed / rhs,
        total_confirmation_time :=
          durationFromMicros (durationAsMicros m.total_confirmation_time / rhs),
        total_sent_time :=
          durationFromMicros (durationAsMicros m.total_sent_time / rhs),
        total_transaction_bytes := m.total_transaction_bytes / rhs,
        send_tps := m.send_tps / (rhs : ℚ),
        total_gross_send_time_ms := m.total_gross_send_time_ms / (rhs : ℚ) }

structure AvgMetric where
  num_of_runs : Nat
  total_metric : Metric
deriving DecidableEq, Repr

/-- `impl AddAssign<&Metric> for AvgMetric`. -/
def avgAddAssign (am : AvgMetric) (rhs : Metric) : AvgMetric :=
  { num_of_runs := am.num_of_runs + 1,
    total_metric := metricAddAssign am.total_metric rhs }

/-- `impl From<AvgMetric> for Metric`. -/
def metricFromAvg (avg : AvgMetric) : Metric :=
  metricDivAssign avg.total_metric avg.num_of_runs

/-- `AvgMetric::default()` rolled forward over `k` identical runs. -/
def addRuns (m : Metric) : Nat → AvgMetric
  | 0 => ⟨0, zeroMetric⟩
  | k + 1 => avgAddAssign (addRuns m k) m

/-- Average across `R` runs of the identical metric `m`. -/
def rollup (R : Nat) (m : Metric) : Metric := metricFromAvg (addRuns m R)

/-- `finalize` written as one simultaneous record update: it only writes
the four average/tps fields, each from the unchanged counters and totals. -/
theorem finalize_def (m : Metric) :
    m.finalize =
      { m with
        average_time_to_send_txs :=
          if m.txs_sent > 0 then
            (durationAsMillis m.total_sent_time : ℚ) / (m.txs_sent : ℚ)
          else m.average_time_to_send_txs,
        average_transaction_bytes :=
          if m.txs_sent > 0 then
            (m.total_transaction_bytes : ℚ) / (m.txs_sent : ℚ)
          else m.average_transaction_bytes,
        send_tps :=
          if m.total_gross_send_time_ms > 1 / 100 then
            (m.txs_sent : ℚ) / (m.total_gross_send_time_ms / 1000)
          else m.send_tps,
        average_confirmation_time_ms :=
          if m.txs_confirmed > 0 then
            (durationAsMillis m.total_confirmation_time : ℚ) / (m.txs_confirmed : ℚ)
          else m.average_confirmation_time_ms } := by
  by_cases h1 : m.txs_sent > 0 <;>
    by_cases h2 : (100 : ℚ)⁻¹ < m.total_gross_send_time_ms <;>
      by_cases h3 : m.txs_confirmed > 0 <;>
        simp [Metric.finalize, h1, h2, h3]

/-- C9: `Metric::finalize` is idempotent — a second call recomputes every
average and tps field from the unchanged counters and totals and leaves the
metric exactly as the first call produced it. -/
theorem metric_finalize_idempotent (m : Metric) :
    m.finalize.finalize = m.finalize := by
  rw [finalize_def, finalize_def]
  congr 1 <;> split_ifs <;> rfl

theorem finalize_txs_sent (m : Metric) : m.finalize.txs_sent = m.txs_sent := by
  rw [finalize_def]

theorem finalize_txs_confirmed (m : Metric) :
    m.finalize.txs_confirmed = m.txs_confirmed := by
  rw [finalize_def]

theorem finalize_txs_un_confirmed (m : Metric) :
    m.finalize.txs_un_confirmed = m.txs_un_confirmed := by
  rw [finalize_def]

theorem finalize_total_sent_time (m : Metric) :
    m.finalize.total_sent_time = m.total_sent_time := by
  rw [finalize_def]

theorem finalize_total_confirmation_time (m : Metric) :
    m.finalize.total_confirmation_time = m.total_confirmation_time := by
  rw [finalize_def]

theorem finalize_total_transaction_bytes (m : Metric) :
    m.finalize.total_transaction_bytes = m.total_transaction_bytes := by
  rw [finalize_def]

theorem finalize_total_gross (m : Metric) :
    m.finalize.total_gross_send_time_ms = m.total_gross_send_time_ms := by
  rw [finalize_def]

theorem finalize_avg_send (m : Metric) (h : 0 < m.txs_sent) :
    m.finalize.average_time_to_send_txs =
      (durationAsMillis m.total_sent_time : ℚ) / (m.txs_sent : ℚ) := by
  rw [finalize_def]
  exact if_pos h

theorem finalize_avg_bytes (m : Metric) (h : 0 < m.txs_sent) :
    m.finalize.average_transaction_bytes =
      (m.total_transaction_bytes : ℚ) / (m.txs_sent : ℚ) := by
  rw [finalize_def]
  exact if_pos h

theorem finalize_send_tps (m : Metric) (h : 1 / 100 < m.total_gross_send_time_ms) :
    m.finalize.send_tps = (m.txs_sent : ℚ) / (m.total_gross_send_time_ms / 1000) := by
  rw [finalize_def]
  exact if_pos h

theorem finalize_avg_conf (m : Metric) (h : 0 < m.txs_confirmed) :
    m.finalize.average_confirmation_time_ms =
      (durationAsMillis m.total_confirmation_time : ℚ) / (m.txs_confirmed : ℚ) := by
  rw [finalize_def]
  exact if_pos h

/-- The counters, totals and gross send time of the accumulated `AvgMetric`
after `k` identical runs are exactly `k` times those of one run (the
interleaved `finalize` calls never touch them). -/
theorem addRuns_raw (m : Metric) :
    ∀ k : Nat,
      (addRuns m k).num_of_runs = k ∧
        (addRuns m k).total_metric.txs_sent = k * m.txs_sent ∧
        (addRuns m k).total_metric.txs_confirmed = k * m.txs_confirmed ∧
        (addRuns m k).total_metric.txs_un_confirmed = k * m.txs_un_confirmed ∧
        (addRuns m k).total_metric.total_sent_time = k * m.total_sent_time ∧
        (addRuns m k).total_metric.total_confirmation_time =
          k * m.total_confirmation_time ∧
        (addRuns m k).total_metric.total_transaction_bytes =
          k * m.total_transaction_bytes ∧
        (addRuns m k).total_metric.total_gross_send_time_ms =
          (k : ℚ) * m.total_gross_send_time_ms := by
  intro k
  induction k with
  | zero => simp [addRuns, zeroMetric]
  | succ k' ih =>
      obtain ⟨h0, h1, h2, h3, h4, h5, h6, h7⟩ := ih
      unfold addRuns avgAddAssign metricAddAssign
      refine ⟨by simp [h0], ?_, ?_, ?_, ?_, ?_, ?_, ?_⟩
      · rw [finalize_txs_sent]
        simp only []
        rw [h1]
        ring
      · rw [finalize_txs_confirmed]
        simp only []
        rw [h2]
        ring
      · rw [finalize_txs_un_confirmed]
        simp only []
        rw [h3]
        ring
      · rw [finalize_total_sent_time]
        simp only []
        rw [h4]
        ring
      · rw [finalize_total_confirmation_time]
        simp only []
        rw [h5]
        ring
      · rw [finalize_total_transaction_bytes]
        simp only []
        rw [h6]
        ring
      · rw [finalize_total_gross]
        simp only []
        rw [h7]
        push_cast
        ring

/-- Equality of the seven public (serialized) fields of a `Metric`: the
three counters and the four average/tps values. -/
def pubEq (a b : Metric) : Prop :=
  a.txs_sent = b.txs_sent ∧ a.txs_confirmed = b.txs_confirmed ∧
    a.txs_un_confirmed = b.txs_un_confirmed ∧
    a.average_confirmation_time_ms = b.average_confirmation_time_ms ∧
    a.average_time_to_send_txs = b.average_time_to_send_txs ∧
    a.average_transaction_bytes = b.average_transaction_bytes ∧
    a.send_tps = b.send_tps

theorem addRuns_zeroMetric : ∀ k : Nat, addRuns zeroMetric k = ⟨k, zeroMetric⟩ := by
  intro k
  induction k with
  | zero => rfl
  | succ k' ih =>
      unfold addRuns avgAddAssign
      rw [ih]
      have : metricAddAssign zeroMetric zeroMetric = zeroMetric := by
        norm_num [metricAddAssign, zeroMetric, Metric.finalize, durationAsMillis]
      rw [this]

theorem micros_div (R t : Nat) (hR : 0 < R) :
    durationAsMicros (R * t) / R = durationAsMicros t := by
  unfold durationAsMicros
  rw [Nat.div_div_eq_div_mul, Nat.mul_comm 1000 R, Nat.mul_div_mul_left t 1000 hR]

theorem millis_of_micros (t : Nat) :
    durationAsMillis (durationFromMicros (durationAsMicros t)) =
      durationAsMillis t := by
  unfold durationAsMillis durationFromMicros durationAsMicros
  rw [show (1000000 : Nat) = 1000 * 1000 from rfl,
    Nat.mul_div_mul_right (t / 1000) 1000 (by norm_num), Nat.div_div_eq_div_mul]

/-- C8 (amended): averaging `R ≥ 1` identical runs of one finalized
benchmark metric reproduces that metric in every counter and average field,
provided the metric records an actual run (positive sent and confirmed
counts) and its gross send time exceeds the 0.01 ms guard of `finalize`
(otherwise `send_tps` is reproduced from stale accumulated values, see the
counterexample); an `AvgMetric` with zero runs, or with only all-zero runs,
converts to the all-zero metric, every average field zero — the divisions
are guarded, no division by zero is evaluated. Arithmetic on the `f64`
fields is modelled as exact rational arithmetic. -/
theorem avg_metric_rollup :
    (∀ (m : Metric) (R : Nat), 1 ≤ R → m.finalize = m → 0 < m.txs_sent →
      0 < m.txs_confirmed → 1 / 100 < m.total_gross_send_time_ms →
      pubEq (rollup R m) m) ∧
      metricFromAvg ⟨0, zeroMetric⟩ = zeroMetric ∧
      (∀ R : Nat, rollup R zeroMetric = zeroMetric) := by
  refine ⟨?_, rfl, ?_⟩
  · intro m R hR hfix hsent hconf hgross
    have hR0 : R ≠ 0 := by omega
    have hRpos : 0 < R := by omega
    have hRq : (R : ℚ) ≠ 0 := Nat.cast_ne_zero.mpr hR0
    obtain ⟨hnum, h1, h2, h3, h4, h5, h6, h7⟩ := addRuns_raw m R
    have hm_send : m.average_time_to_send_txs =
        (durationAsMillis m.total_sent_time : ℚ) / (m.txs_sent : ℚ) := by
      conv_lhs => rw [← hfix]
      exact finalize_avg_send m hsent
    have hm_bytes : m.average_transaction_bytes =
        (m.total_transaction_bytes : ℚ) / (m.txs_sent : ℚ) := by
      conv_lhs => rw [← hfix]
      exact finalize_avg_bytes m hsent
    have hm_tps : m.send_tps =
        (m.txs_sent : ℚ) / (m.total_gross_send_time_ms / 1000) := by
      conv_lhs => rw [← hfix]
      exact finalize_send_tps m hgross
    have hm_conf : m.average_confirmation_time_ms =
        (durationAsMillis m.total_confirmation_time : ℚ) / (m.txs_confirmed : ℚ) := by
      conv_lhs => rw [← hfix]
      exact finalize_avg_conf m hconf
    have hD : rollup R m = Metric.finalize
        { (addRuns m R).total_metric with
          txs_sent := m.txs_sent,
          txs_confirmed := m.txs_confirmed,
          txs_un_confirmed := m.txs_un_confirmed,
          total_confirmation_time :=
            durationFromMicros (durationAsMicros m.total_confirmation_time),
          total_sent_time :=
            durationFromMicros (durationAsMicros m.total_sent_time),
          total_transaction_bytes := m.total_transaction_bytes,
          send_tps := (addRuns m R).total_metric.send_tps / (R : ℚ),
          total_gross_send_time_ms := m.total_gross_send_time_ms } := by
      unfold rollup metricFromAvg metricDivAssign
      rw [hnum, if_neg hR0]
      have e1 : (addRuns m R).total_metric.txs_sent / R = m.txs_sent := by
        rw [h1]; exact Nat.mul_div_cancel_left _ hRpos
      have e2 : (addRuns m R).total_metric.txs_confirmed / R = m.txs_confirmed := by
        rw [h2]; exact Nat.mul_div_cancel_left _ hRpos
      have e3 : (addRuns m R).total_metric.txs_un_confirmed / R =
          m.txs_un_confirmed := by
        rw [h3]; exact Nat.mul_div_cancel_left _ hRpos
      have e4 : durationAsMicros (addRuns m R).total_metric.total_sent_time / R =
          durationAsMicros m.total_sent_time := by
        rw [h4]; exact micros_div R _ hRpos
      have e5 : durationAsMicros (addRuns m R).total_metric.total_confirmation_time / R =
          durationAsMicros m.total_confirmation_time := by
        rw [h5]; exact micros_div R _ hRpos
      have e6 : (addRuns m R).total_metric.total_transaction_bytes / R =
          m.total_transaction_bytes := by
        rw [h6]; exact Nat.mul_div_cancel_left _ hRpos
      have e7 : (addRuns m R).total_metric.total_gross_send_time_ms / (R : ℚ) =
          m.total_gross_send_time_ms := by
        rw [h7]; exact mul_div_cancel_left₀ _ hRq
      rw [e1, e2, e3, e4, e5, e6, e7]
    rw [hD]
    refine ⟨?_, ?_, ?_, ?_, ?_, ?_, ?_⟩
    · rw [finalize_txs_sent]
    · rw [finalize_txs_confirmed]
    · rw [finalize_txs_un_confirmed]
    · rw [finalize_avg_conf _ (by exact hconf)]
      simp only []
      rw [millis_of_micros, hm_conf]
    · rw [finalize_avg_send _ (by exact hsent)]
      simp only []
      rw [millis_of_micros, hm_send]
    · rw [finalize_avg_bytes _ (by exact hsent)]
      simp only []
      rw [hm_bytes]
    · rw [finalize_send_tps _ (by exact hgross)]
      simp only []
      rw [hm_tps]
  · intro R
    cases R with
    | zero => rfl
    | succ r =>
        unfold rollup metricFromAvg
        rw [addRuns_zeroMetric]
        simp only []
        unfold metricDivAssign
        rw [if_neg (Nat.succ_ne_zero r)]
        norm_num [zeroMetric, durationAsMicros, durationFromMicros,
          durationAsMillis, Metric.finalize]

/-- Witness for `avg_metric_rollup`: averaging 2 runs of a finalized metric
with one sent and confirmed transaction and gross send time 20 ms. -/
theorem avg_metric_rollup_witness :
    pubEq (rollup 2 ((zeroMetric.add_successful_transaction 0 0
        0).set_total_gross_send_time 20).finalize)
      ((zeroMetric.add_successful_transaction 0 0
        0).set_total_gross_send_time 20).finalize :=
  avg_metric_rollup.1 _ 2 (by omega)
    (metric_finalize_idempotent _) (by norm_num [zeroMetric,
      Metric.add_successful_transaction, Metric.set_total_gross_send_time,
      finalize_txs_sent])
    (by norm_num [zeroMetric, Metric.add_successful_transaction,
      Metric.set_total_gross_send_time, finalize_txs_confirmed])
    (by norm_num [zeroMetric, Metric.add_successful_transaction,
      Metric.set_total_gross_send_time, finalize_total_gross])

/-- A real, finalized benchmark metric: one successful transaction and a
gross send time of 0.008 ms — positive, but below the 0.01 ms guard of
`finalize`, so its `send_tps` stays 0. -/
def mC8 : Metric :=
  ((zeroMetric.add_successful_transaction 0 0 0).set_total_gross_send_time
    (1 / 125)).finalize

/-- C8 as stated is false: rolling up R = 2 identical runs of the finalized
metric `mC8` does NOT reproduce it — the accumulated gross send time
2 · 0.008 = 0.016 ms passes the 0.01 ms guard during accumulation, so the
intermediate `finalize` recomputes `send_tps` to 125000; the division by
R = 2 then leaves 62500, while the guard (0.008 ≤ 0.01) prevents the final
`finalize` from recomputing it. The original metric has `send_tps = 0`. -/
theorem avg_metric_rollup_counterexample :
    mC8.finalize = mC8 ∧ 0 < mC8.txs_sent ∧ 0 < mC8.txs_confirmed ∧
      (rollup 2 mC8).send_tps = 62500 ∧ mC8.send_tps = 0 := by
  have hm : mC8 = ⟨1, 1, 0, 0, 0, 0, 0, 0, 0, 0, 1 / 125⟩ := by
    norm_num [mC8, zeroMetric, Metric.add_successful_transaction,
      Metric.set_total_gross_send_time, Metric.finalize, durationAsMillis]
  have hstep1 : metricAddAssign zeroMetric mC8 = mC8 := by
    rw [hm]
    norm_num [metricAddAssign, zeroMetric, Metric.finalize, durationAsMillis]
  have hstep2 : metricAddAssign mC8 mC8 =
      ⟨2, 2, 0, 0, 0, 0, 125000, 0, 0, 0, 2 / 125⟩ := by
    rw [hm]
    norm_num [metricAddAssign, Metric.finalize, durationAsMillis]
  have hA : addRuns mC8 2 = ⟨2, ⟨2, 2, 0, 0, 0, 0, 125000, 0, 0, 0, 2 / 125⟩⟩ := by
    show avgAddAssign (avgAddAssign (addRuns mC8 0) mC8) mC8 = _
    rw [show addRuns mC8 0 = ⟨0, zeroMetric⟩ from rfl]
    unfold avgAddAssign
    simp only []
    rw [hstep1, hstep2]
  have hroll : (rollup 2 mC8).send_tps = 62500 := by
    unfold rollup metricFromAvg
    rw [hA]
    simp only []
    norm_num [metricDivAssign, Metric.finalize, durationAsMillis,
      durationAsMicros, durationFromMicros]
  refine ⟨metric_finalize_idempotent _, ?_, ?_, hroll, ?_⟩ <;> norm_num [hm]

/-! ## Persistence record (history/src/postgres/postgres_block.rs)

`PostgresBlock` stores the numeric block fields as Postgres `BIGINT`
(`i64`); the Rust `as` casts between `u64` and `i64` reinterpret the 64-bit
pattern, modelled by `u64ToI64`/`i64ToU64`. The BASE64 rewards serializer
and deserializer live outside the excerpted sources and are parameters. -/

/-- `u64 as i64`: reinterpret the 64-bit pattern as a signed value. -/
def u64ToI64 (n : Nat) : Int :=
  if n % U64_MOD < 2 ^ 63 then (n % U64_MOD : Int)
  else (n % U64_MOD : Int) - (U64_MOD : Int)

/-- `i64 as u64`: reinterpret the signed value as a 64-bit pattern. -/
def i64ToU64 (i : Int) : Nat := (i % (U64_MOD : Int)).toNat

/-- A produced block as fanned out by the ingest pipeline. -/
structure ProducedBlock where
  transactions : List Nat
  leader_id : Option String
  blockhash : String
  block_height : Nat
  slot : Nat
  parent_slot : Nat
  block_time : Nat
  commitment_level : Level
  previous_blockhash : String
  rewards : Option (List Nat)
deriving DecidableEq, Repr

/-- The persistence row (postgres_block.rs lines 20-31). -/
structure PostgresBlock where
  slot : Int
  blockhash : String
  block_height : Int
  parent_slot : Int
  block_time : Int
  previous_blockhash : String
  rewards : Option String
  leader_id : Option String
deriving DecidableEq, Repr

/-- `impl From<&ProducedBlock> for PostgresBlock` (lines 33-53), with the
BASE64 rewards serializer as a parameter (`ser` returns `none` on failure,
matching `.ok()`). -/
def postgresBlockFrom (ser : List Nat → Option String) (value : ProducedBlock) :
    PostgresBlock :=
  { blockhash := value.blockhash,
    block_height := u64ToI64 value.block_height,
    slot := u64ToI64 value.slot,
    parent_slot := u64ToI64 value.parent_slot,
    block_time := u64ToI64 value.block_time,
    previous_blockhash := value.previous_blockhash,
    rewards := (value.rewards.map ser).getD Option.none,
    leader_id := value.leader_id }

/-- `PostgresBlock::into_produced_block` (lines 55-80): reconstruct a
`ProducedBlock`, but with `transactions := vec![]` and `leader_id := None`
(the `// TODO implement` stub); the `transactions` argument is ignored. -/
def into_produced_block (de : String → Option (List Nat)) (pb : PostgresBlock)
    (transactions : List Nat) (commitment_config : Level) : ProducedBlock :=
  { transactions := [],
    leader_id := Option.none,
    blockhash := pb.blockhash,
    block_height := i64ToU64 pb.block_height,
    slot := i64ToU64 pb.slot,
    parent_slot := i64ToU64 pb.parent_slot,
    block_time := i64ToU64 pb.block_time,
    commitment_level := commitment_config,
    previous_blockhash := pb.previous_blockhash,
    rewards := (pb.rewards.map de).getD Option.none }

theorem i64_u64_roundtrip (n : Nat) (h : n < U64_MOD) : i64ToU64 (u64ToI64 n) = n := by
  unfold i64ToU64 u64ToI64 U64_MOD
  unfold U64_MOD at h
  split_ifs with h1 <;> omega

/-- C10: persisting a `ProducedBlock` and reading it back preserves slot,
blockhash, block height, parent slot, block time and previous blockhash
(the numeric fields being genuine u64 values), for every rewards
serializer/deserializer, every `transactions` argument and every commitment
config — but the reconstructed block always has an empty transaction list
and no leader id, regardless of what the original block carried. -/
theorem postgres_roundtrip (ser : List Nat → Option String)
    (de : String → Option (List Nat)) (txs : List Nat) (cc : Level)
    (b : ProducedBlock)
    (h1 : b.slot < U64_MOD) (h2 : b.block_height < U64_MOD)
    (h3 : b.parent_slot < U64_MOD) (h4 : b.block_time < U64_MOD) :
    (into_produced_block de (postgresBlockFrom ser b) txs cc).slot = b.slot ∧
      (into_produced_block de (postgresBlockFrom ser b) txs cc).blockhash =
        b.blockhash ∧
      (into_produced_block de (postgresBlockFrom ser b) txs cc).block_height =
        b.block_height ∧
      (into_produced_block de (postgresBlockFrom ser b) txs cc).parent_slot =
        b.parent_slot ∧
      (into_produced_block de (postgresBlockFrom ser b) txs cc).block_time =
        b.block_time ∧
      (into_produced_block de (postgresBlockFrom ser b) txs cc).previous_blockhash =
        b.previous_blockhash ∧
      (into_produced_block de (postgresBlockFrom ser b) txs cc).transactions = [] ∧
      (into_produced_block de (postgresBlockFrom ser b) txs cc).leader_id =
        Option.none := by
  unfold into_produced_block postgresBlockFrom
  refine ⟨?_, rfl, ?_, ?_, ?_, rfl, rfl, rfl⟩ <;>
    simp only [] <;>
      [exact i64_u64_roundtrip _ h1; exact i64_u64_roundtrip _ h2;
        exact i64_u64_roundtrip _ h3; exact i64_u64_roundtrip _ h4]

/-- Witness for `postgres_roundtrip` at a concrete block with transactions
and a leader id that get dropped. -/
theorem postgres_roundtrip_witness :
    (into_produced_block (fun _ => Option.none)
        (postgresBlockFrom (fun _ => Option.none)
          ⟨[9, 9], some "leader", "H", 10, 20, 19, 30, .finalized, "P", Option.none⟩)
        [7] .confirmed).slot = 20 ∧
      (into_produced_block (fun _ => Option.none)
        (postgresBlockFrom (fun _ => Option.none)
          ⟨[9, 9], some "leader", "H", 10, 20, 19, 30, .finalized, "P", Option.none⟩)
        [7] .confirmed).transactions = [] ∧
      (into_produced_block (fun _ => Option.none)
        (postgresBlockFrom (fun _ => Option.none)
          ⟨[9, 9], some "leader", "H", 10, 20, 19, 30, .finalized, "P", Option.none⟩)
        [7] .confirmed).leader_id = Option.none := by
  have h := postgres_roundtrip (fun _ => Option.none) (fun _ => Option.none)
    [7] .confirmed ⟨[9, 9], some "leader", "H", 10, 20, 19, 30, .finalized, "P", Option.none⟩
    (by norm_num [U64_MOD]) (by norm_num [U64_MOD]) (by norm_num [U64_MOD])
    (by norm_num [U64_MOD])
  exact ⟨h.1, h.2.2.2.2.2.2.1, h.2.2.2.2.2.2.2⟩

end LiteRpc
